import Mathlib

/-!
Shallow embedding of the `file-header` library (src/lib.rs) and proofs about it.

File contents are modelled as `List Char` (Rust `String` is UTF-8 text; the
operations of this crate are all character/byte-sequence manipulations).
Paths are modelled by their final component (the file name), which is the only
part the library inspects (`Path::extension` / `Path::file_name`).
-/

/-- Text content: a Rust `String` / `&str`, modelled as a list of characters. -/
abbrev Str := List Char

/-- Rust `str::split('\n')`: splits into the (possibly empty) segments between
newlines; the empty string yields `[""]`, and a trailing newline yields a final
empty segment. -/
def splitOnNl : Str → List Str
  | [] => [[]]
  | c :: rest =>
    if c = '\n' then [] :: splitOnNl rest
    else
      match splitOnNl rest with
      | [] => [[c]]
      | s :: ss => (c :: s) :: ss

/-- Rust `str::split_once('\n')`: `some (before, after)` for the first newline,
`none` when the string contains no newline. -/
def splitOnceNl : Str → Option (Str × Str)
  | [] => none
  | c :: rest =>
    if c = '\n' then some ([], rest)
    else
      match splitOnceNl rest with
      | none => none
      | some (a, b) => some (c :: a, b)

/-- Rust `str::trim_end_matches([' ', '\t'])`: removes the longest trailing run
of space and tab characters. -/
def trimEndSpaceTab : Str → Str
  | [] => []
  | c :: rest =>
    match trimEndSpaceTab rest with
    | [] => if c = ' ' || c = '\t' then [] else [c]
    | r => c :: r

/-- Boolean prefix test (Rust `str::starts_with`, used to realise substring
search positionally). -/
def startsWith : Str → Str → Bool
  | [], _ => true
  | _ :: _, [] => false
  | a :: as, b :: bs => decide (a = b) && startsWith as bs

/-- Rust `str::contains(&str)`: substring search. `containsSub hay needle` is
true iff `needle` occurs contiguously in `hay`. -/
def containsSub (hay needle : Str) : Bool :=
  match hay with
  | [] => needle.isEmpty
  | _ :: rest => startsWith needle hay || containsSub rest needle

/-- Rust `String::replacen(pat, "", 1)`: removes the leftmost occurrence of
`pat` (and only that one); the input is returned unchanged when `pat` does not
occur. -/
def removeFirst (pat : Str) : Str → Str
  | [] => []
  | c :: rest =>
    if startsWith pat (c :: rest) then (c :: rest).drop pat.length
    else c :: removeFirst pat rest

/-- The first line of a text (everything before the first newline; the whole
text when it has no newline). -/
def firstLineOf (s : Str) : Str := s.takeWhile (fun c => decide (c ≠ '\n'))

/-- Delimiters to use around and inside a header for a particular file syntax
(struct `HeaderDelimiters`, src/lib.rs:513-520). -/
structure HeaderDelimiters where
  first_line : Str
  content_line_prefix : Str
  last_line : Str
deriving DecidableEq

/-- Rust `Path::extension` on a file name: the portion after the last `.`;
`none` when there is no `.`, or when the only `.` is leading (hidden files).
`splitAtLastDot` returns the pieces before/after the last dot. -/
def splitAtLastDot : Str → Option (Str × Str)
  | [] => none
  | c :: rest =>
    match splitAtLastDot rest with
    | some (b, a) => some (c :: b, a)
    | none => if c = '.' then some ([], rest) else none

/-- Rust `Path::extension().and_then(|s| s.to_str())` for a path given by its
file name (this model keeps file names as text, so the UTF-8 conversion is the
identity). -/
def fileExtension (name : Str) : Option Str :=
  match splitAtLastDot name with
  | none => none
  | some (stem, ext) => if stem = [] then none else some ext

/-- Extensions commented with `/*` / ` * ` / ` */` (src/lib.rs:478). The Rust
`"c" | "h" | ... =>` match arm is modelled as membership in this list. -/
def exts_slash_star : List Str :=
  [("c".toList), ("h".toList), ("gv".toList), ("java".toList), ("scala".toList),
   ("kt".toList), ("kts".toList)]

/-- Extensions commented with `/**` / ` * ` / ` */` (src/lib.rs:479-481). -/
def exts_doc_star : List Str :=
  [("js".toList), ("mjs".toList), ("cjs".toList), ("jsx".toList), ("tsx".toList),
   ("css".toList), ("scss".toList), ("sass".toList), ("ts".toList)]

/-- Extensions commented with `// ` lines (src/lib.rs:482-483); `php` is a
separate later match arm in the source. -/
def exts_slash_slash : List Str :=
  [("cc".toList), ("cpp".toList), ("cs".toList), ("go".toList), ("hcl".toList),
   ("hh".toList), ("hpp".toList), ("m".toList), ("mm".toList), ("proto".toList),
   ("rs".toList), ("swift".toList), ("dart".toList), ("groovy".toList),
   ("v".toList), ("sv".toList)]

/-- Extensions commented with `# ` lines (src/lib.rs:484-485). -/
def exts_hash : List Str :=
  [("py".toList), ("sh".toList), ("yaml".toList), ("yml".toList),
   ("dockerfile".toList), ("rb".toList), ("gemfile".toList), ("tcl".toList),
   ("tf".toList), ("bzl".toList), ("pl".toList), ("pp".toList), ("build".toList)]

/-- Extensions commented with `;; ` lines (src/lib.rs:486). -/
def exts_semi : List Str := [("el".toList), ("lisp".toList)]

/-- Extensions commented with `% ` lines (src/lib.rs:487). -/
def exts_percent : List Str := [("erl".toList)]

/-- Extensions commented with `-- ` lines (src/lib.rs:488). -/
def exts_dash : List Str :=
  [("hs".toList), ("lua".toList), ("sql".toList), ("sdl".toList)]

/-- Extensions commented with `<!--` / ` ` / `-->` (src/lib.rs:489). -/
def exts_angle : List Str :=
  [("html".toList), ("xml".toList), ("vue".toList), ("wxi".toList),
   ("wxl".toList), ("wxs".toList)]

/-- Extensions commented with `(**` / `   ` / `*)` (src/lib.rs:491). -/
def exts_ml : List Str :=
  [("ml".toList), ("mli".toList), ("mll".toList), ("mly".toList)]

/-- `header_delimiters` (src/lib.rs:471-509): delimiter lookup by extension
first (an unrecognised or missing extension becomes `""`), falling back to the
exact file name `Dockerfile`. Matches the source's arm order, with `php` in its
own arm after the `html`-family arm. -/
def header_delimiters (p : Str) : Option HeaderDelimiters :=
  let ext := (fileExtension p).getD []
  if ext ∈ exts_slash_star then some ⟨("/*".toList), (" * ".toList), (" */".toList)⟩
  else if ext ∈ exts_doc_star then some ⟨("/**".toList), (" * ".toList), (" */".toList)⟩
  else if ext ∈ exts_slash_slash then some ⟨[], ("// ".toList), []⟩
  else if ext ∈ exts_hash then some ⟨[], ("# ".toList), []⟩
  else if ext ∈ exts_semi then some ⟨[], (";; ".toList), []⟩
  else if ext ∈ exts_percent then some ⟨[], ("% ".toList), []⟩
  else if ext ∈ exts_dash then some ⟨[], ("-- ".toList), []⟩
  else if ext ∈ exts_angle then some ⟨("<!--".toList), (" ".toList), ("-->".toList)⟩
  else if ext = ("php".toList) then some ⟨[], ("// ".toList), []⟩
  else if ext ∈ exts_ml then some ⟨("(**".toList), ("   ".toList), ("*)".toList)⟩
  else if p = ("Dockerfile".toList) then some ⟨[], ("# ".toList), []⟩
  else none

/-- `MAGIC_FIRST_LINES` (src/lib.rs:523-532). -/
def MAGIC_FIRST_LINES : List Str :=
  [("#!".toList), ("<?xml".toList), ("<!doctype".toList), ("# encoding:".toList),
   ("# frozen_string_literal:".toList), ("<?php".toList), ("# escape".toList),
   ("# syntax".toList)]

/-- `wrap_header` (src/lib.rs:446-467): wraps header text in comment
delimiters. The accumulated output is trimmed of trailing spaces/tabs after
each content line is pushed (`out.truncate(out.trim_end_matches(..).len())`),
then a newline is pushed. -/
def wrap_header (orig_header : Str) (delim : HeaderDelimiters) : Str :=
  match delim with
  | ⟨fl, cp, ll⟩ =>
    let out := if fl = [] then [] else fl ++ ['\n']
    let out := (splitOnNl orig_header).foldl
      (fun acc line => trimEndSpaceTab (acc ++ cp ++ line) ++ ['\n']) out
    if ll = [] then out else out ++ ll ++ ['\n']

/-- The declarative form of `wrap_header` used by the specification: prefix
line (when non-empty), then each header line as `content_line_prefix ++ line`
trimmed of trailing spaces/tabs, then suffix line (when non-empty), every line
newline-terminated. -/
def wrap_header_spec (orig_header : Str) (delim : HeaderDelimiters) : Str :=
  match delim with
  | ⟨fl, cp, ll⟩ =>
    (if fl = [] then [] else fl ++ ['\n']) ++
    ((splitOnNl orig_header).map
      (fun line => trimEndSpaceTab (cp ++ line) ++ ['\n'])).flatten ++
    (if ll = [] then [] else ll ++ ['\n'])

/-- The delimiter table exactly as the specification prints it (§4.3):
extension lookup first, case-sensitive, with `php` listed inside the `// ` row;
then the exact-filename fallback for `Dockerfile`; otherwise no mapping. -/
def spec_header_delimiters (p : Str) : Option HeaderDelimiters :=
  let ext := (fileExtension p).getD []
  if ext ∈ exts_slash_star then some ⟨("/*".toList), (" * ".toList), (" */".toList)⟩
  else if ext ∈ exts_doc_star then some ⟨("/**".toList), (" * ".toList), (" */".toList)⟩
  else if ext ∈ exts_slash_slash ++ [("php".toList)] then some ⟨[], ("// ".toList), []⟩
  else if ext ∈ exts_hash then some ⟨[], ("# ".toList), []⟩
  else if ext ∈ exts_semi then some ⟨[], (";; ".toList), []⟩
  else if ext ∈ exts_percent then some ⟨[], ("% ".toList), []⟩
  else if ext ∈ exts_dash then some ⟨[], ("-- ".toList), []⟩
  else if ext ∈ exts_angle then some ⟨("<!--".toList), (" ".toList), ("-->".toList)⟩
  else if ext ∈ exts_ml then some ⟨("(**".toList), ("   ".toList), ("*)".toList)⟩
  else if p = ("Dockerfile".toList) then some ⟨[], ("# ".toList), []⟩
  else none

/-- A file on disk, as read by this library: either text (the bytes decode as
UTF-8, at least throughout any window the operation reads) or binary (decoding
fails within the checker's scanned window, hence also under a full read).
Opening the file is assumed to succeed; other I/O failures (permissions, races)
are outside this model. -/
inductive RawFile
  | text (contents : Str)
  | binary

/-- Rust `fs::read_to_string`: the whole file as text, or an `InvalidData`
I/O error (`none`) for undecodable bytes. -/
def read_to_string : RawFile → Option Str
  | .text c => some c
  | .binary => none

/-- `AddHeaderError` (src/lib.rs:161-168). -/
inductive AddHeaderError
  | ioError (p : Str)
  | unrecognizedExtension (p : Str)
deriving DecidableEq

/-- `DeleteHeaderError` (src/lib.rs:172-179). -/
inductive DeleteHeaderError
  | ioError (p : Str)
  | unrecognizedExtension (p : Str)
deriving DecidableEq

/-- `Header<C>` (src/lib.rs:60-65): a checker (trait `HeaderChecker`, modelled
as its decision function on text) and the plain header text. -/
structure Header where
  check : Str → Bool
  header : Str

/-- `Header::header_present` on already-decoded text (src/lib.rs:78-80). -/
def Header.header_present (h : Header) (contents : Str) : Bool := h.check contents

/-- `Header::add_header_if_missing` (src/lib.rs:85-119), with the file system
reduced to the one file addressed: returns `(changed, new file contents)` or an
error. Reads the file (decode failure is an I/O error), no-ops when the checker
reports the header present, errors when the path has no delimiter mapping, and
otherwise writes `[magic first line, if the existing first line exists and
contains a magic marker] ++ wrapped header ++ "\n" ++ remaining contents`. -/
def add_header_if_missing (h : Header) (p : Str) (file : RawFile) :
    Except AddHeaderError (Bool × Str) :=
  match read_to_string file with
  | none => .error (.ioError p)
  | some contents =>
    if h.header_present contents then .ok (false, contents)
    else
      match header_delimiters p with
      | none => .error (.unrecognizedExtension p)
      | some d =>
        let wrapped := wrap_header h.header d
        let eff_after :=
          match splitOnceNl contents with
          | some (first_line, rest) =>
            if MAGIC_FIRST_LINES.any (fun l => containsSub first_line l)
            then (first_line ++ '\n' :: wrapped, rest)
            else (wrapped, contents)
          | none => (wrapped, contents)
        .ok (true, eff_after.1 ++ '\n' :: eff_after.2)

/-- `Header::delete_header_if_present` (src/lib.rs:124-156): no-ops when the
checker reports the header absent, errors when the path has no delimiter
mapping, and otherwise removes the first occurrence of the exact block
`wrap_header ... ++ "\n"` (the trailing separator added by
`add_header_if_missing`), no-oping when that block does not occur. -/
def delete_header_if_present (h : Header) (p : Str) (file : RawFile) :
    Except DeleteHeaderError (Bool × Str) :=
  match read_to_string file with
  | none => .error (.ioError p)
  | some contents =>
    if ! h.header_present contents then .ok (false, contents)
    else
      match header_delimiters p with
      | none => .error (.unrecognizedExtension p)
      | some d =>
        let effective_header := wrap_header h.header d ++ ['\n']
        if ! containsSub contents effective_header then .ok (false, contents)
        else .ok (true, removeFirst effective_header contents)

/-- `SingleLineChecker` (src/lib.rs:191-196). -/
structure SingleLineChecker where
  pattern : Str
  max_lines : Nat

/-- Rust `BufRead::read_line`: `none` at end of input; otherwise the next line
including its terminating newline (the final line may lack one), plus the rest
of the input. -/
def read_line : Str → Option (Str × Str)
  | [] => none
  | c :: rest =>
    if c = '\n' then some (['\n'], rest)
    else
      match read_line rest with
      | none => some ([c], [])
      | some (l, r) => some (c :: l, r)

/-- The loop of `SingleLineChecker::check` (src/lib.rs:206-226): while fewer
than `max_lines` lines have been read, read a line (EOF returns false) and
return true when it contains the pattern as a substring. -/
def slc_check_loop (pattern : Str) : Nat → Str → Bool
  | 0, _ => false
  | n + 1, input =>
    match read_line input with
    | none => false
    | some (line, rest) =>
      if containsSub line pattern then true else slc_check_loop pattern n rest

/-- `SingleLineChecker::check` on decoded text. -/
def SingleLineChecker.check (c : SingleLineChecker) (input : Str) : Bool :=
  slc_check_loop c.pattern c.max_lines input

/-- All lines of an input as `read_line` delimits them: each includes its
terminating newline, except possibly the last; empty input has no lines. -/
def read_lines : Str → List Str
  | [] => []
  | c :: rest =>
    if c = '\n' then ['\n'] :: read_lines rest
    else
      match read_lines rest with
      | [] => [[c]]
      | l :: ls => (c :: l) :: ls

/-- `CheckStatus` (src/lib.rs:230-235). -/
inductive CheckStatus
  | headerNotFound
  | binaryFile
deriving DecidableEq

/-- `FileResult` (src/lib.rs:239-242). -/
structure FileResult where
  path : Str
  status : CheckStatus
deriving DecidableEq

/-- `FileResults` (src/lib.rs:246-251). -/
structure FileResults where
  no_header_files : List Str
  binary_files : List Str
deriving DecidableEq

/-- One step of `FromIterator<FileResult> for FileResults`
(src/lib.rs:260-274): route a result into its bucket. -/
def FileResults.push (r : FileResults) (fr : FileResult) : FileResults :=
  match fr.status with
  | .headerNotFound => ⟨r.no_header_files ++ [fr.path], r.binary_files⟩
  | .binaryFile => ⟨r.no_header_files, r.binary_files ++ [fr.path]⟩

/-- The classification a scan worker gives one file (src/lib.rs:300-324):
header present is a no-op, header absent records `HeaderNotFound`, and an
`InvalidData` read error (undecodable bytes in the scanned window) records
`BinaryFile`. -/
def classify_file (h : Header) (p : Str) (f : RawFile) : Option FileResult :=
  match f with
  | .binary => some ⟨p, .binaryFile⟩
  | .text c => if h.header_present c then none else some ⟨p, .headerNotFound⟩

/-- `check_headers_recursively` (src/lib.rs:285-337) restricted to its
observable aggregation: classify each discovered file and collect the results
into buckets. The worker pool's interleaving only permutes the bucket
contents; this model fixes the enumeration order. Fatal I/O errors (which
abort the run) have no representation in `RawFile`; the error path's control
flow is modelled separately by `check_scan_control_flow`. -/
def check_headers_recursively (h : Header) (files : List (Str × RawFile)) :
    FileResults :=
  files.foldl
    (fun acc pf =>
      match classify_file h pf.1 pf.2 with
      | none => acc
      | some fr => acc.push fr)
    ⟨[], []⟩

/-- `walkdir::Error`, identified only by an opaque id. -/
inductive WalkdirError
  | mk (id : Nat)
deriving DecidableEq

/-- `CheckHeadersRecursivelyError` (src/lib.rs:341-348). -/
inductive CheckHeadersRecursivelyError
  | ioError (p : Str)
  | walkdirError (e : WalkdirError)
deriving DecidableEq

/-- Rust `result_rx.into_iter().collect::<Result<FileResults, _>>()`
(src/lib.rs:332): fold the received results into buckets, short-circuiting at
the first error in channel order. -/
def collect_file_results (acc : FileResults) :
    List (Except CheckHeadersRecursivelyError FileResult) →
    Except CheckHeadersRecursivelyError FileResults
  | [] => .ok acc
  | .error e :: _ => .error e
  | .ok fr :: rest => collect_file_results (acc.push fr) rest

/-- The sequencing of `check_headers_recursively`'s tail (src/lib.rs:331-336):
`find_files(...)?`, then the result collection with `?`, then the
`for h in handles { h.join() }` loop, then `Ok`. Inputs are the walk outcome
and the worker results in channel-arrival order; the boolean records whether
the join loop was reached before the function returned. -/
def check_scan_control_flow (walk : Except WalkdirError Unit)
    (results : List (Except CheckHeadersRecursivelyError FileResult)) :
    Except CheckHeadersRecursivelyError FileResults × Bool :=
  match walk with
  | .error e => (.error (.walkdirError e), false)
  | .ok _ =>
    match collect_file_results ⟨[], []⟩ results with
    | .error e => (.error e, false)
    | .ok res => (.ok res, true)

/-- A `walkdir` directory entry: a path and whether it is a directory. -/
structure DirEntry where
  path : Str
  is_dir : Bool
deriving DecidableEq

/-- `find_files` (src/lib.rs:427-440): traverse the walk results in order,
aborting at the first `walkdir` error (`let entry = r?`), skipping directories
and paths rejected by the predicate, and sending every other path. The sent
paths are returned as a list; on error the paths already sent are irrelevant
to both callers, which read the channel only after `find_files` succeeds. -/
def find_files (walk : List (Except WalkdirError DirEntry))
    (path_predicate : Str → Bool) : Except WalkdirError (List Str) :=
  match walk with
  | [] => .ok []
  | .error e :: _ => .error e
  | .ok entry :: rest =>
    if entry.is_dir || ! path_predicate entry.path then
      find_files rest path_predicate
    else
      match find_files rest path_predicate with
      | .error e => .error e
      | .ok ps => .ok (entry.path :: ps)

/-- The `filter_map` + `collect::<Result<Vec<_>, _>>` loop of
`recursive_optional_operation` (src/lib.rs:548-561): apply `operation` to each
path in order, keep the paths where it returns `true`, and stop at the first
error (later paths are never attempted). The second component is the trace of
paths on which `operation` was actually invoked. -/
def apply_operation_each {E : Type} (operation : Str → Except E Bool) :
    List Str → Except E (List Str) × List Str
  | [] => (.ok [], [])
  | p :: rest =>
    match operation p with
    | .error e => (.error e, [p])
    | .ok changed =>
      match apply_operation_each operation rest with
      | (.error e, tr) => (.error e, p :: tr)
      | (.ok ps, tr) => (.ok (if changed then p :: ps else ps), p :: tr)

/-- `recursive_optional_operation` (src/lib.rs:538-562): `find_files` runs to
completion synchronously (the path channel is drained only afterwards), its
error propagates before any operation runs, and otherwise the operation is
applied to each discovered path in order. The second component is the trace of
paths on which `operation` was invoked. -/
def recursive_optional_operation {E : Type} (fromWalkdir : WalkdirError → E)
    (walk : List (Except WalkdirError DirEntry)) (path_predicate : Str → Bool)
    (operation : Str → Except E Bool) : Except E (List Str) × List Str :=
  match find_files walk path_predicate with
  | .error e => (.error (fromWalkdir e), [])
  | .ok paths => apply_operation_each operation paths

/-- `AddHeadersRecursivelyError` (src/lib.rs:367-377). -/
inductive AddHeadersRecursivelyError
  | ioError (p : Str)
  | walkdirError (e : WalkdirError)
  | unrecognizedExtension (p : Str)
deriving DecidableEq

/-- `impl From<AddHeaderError> for AddHeadersRecursivelyError`
(src/lib.rs:379-386). -/
def AddHeadersRecursivelyError.fromAdd : AddHeaderError → AddHeadersRecursivelyError
  | .ioError p => .ioError p
  | .unrecognizedExtension p => .unrecognizedExtension p

/-- `DeleteHeadersRecursivelyError` (src/lib.rs:404-414). -/
inductive DeleteHeadersRecursivelyError
  | ioError (p : Str)
  | walkdirError (e : WalkdirError)
  | unrecognizedExtension (p : Str)
deriving DecidableEq

/-- `impl From<DeleteHeaderError> for DeleteHeadersRecursivelyError`
(src/lib.rs:416-423). -/
def DeleteHeadersRecursivelyError.fromDelete :
    DeleteHeaderError → DeleteHeadersRecursivelyError
  | .ioError p => .ioError p
  | .unrecognizedExtension p => .unrecognizedExtension p

/-- `add_headers_recursively` (src/lib.rs:354-363), over a snapshot file system
`fs` (a walk visits each path at most once, so no operation observes another's
mutation within one run). -/
def add_headers_recursively (h : Header) (fs : Str → RawFile)
    (walk : List (Except WalkdirError DirEntry)) (path_predicate : Str → Bool) :
    Except AddHeadersRecursivelyError (List Str) × List Str :=
  recursive_optional_operation .walkdirError walk path_predicate
    (fun p =>
      match add_header_if_missing h p (fs p) with
      | .error e => .error (AddHeadersRecursivelyError.fromAdd e)
      | .ok r => .ok r.1)

/-- `delete_headers_recursively` (src/lib.rs:392-400), over a snapshot file
system `fs`. -/
def delete_headers_recursively (h : Header) (fs : Str → RawFile)
    (walk : List (Except WalkdirError DirEntry)) (path_predicate : Str → Bool) :
    Except DeleteHeadersRecursivelyError (List Str) × List Str :=
  recursive_optional_operation .walkdirError walk path_predicate
    (fun p =>
      match delete_header_if_present h p (fs p) with
      | .error e => .error (DeleteHeadersRecursivelyError.fromDelete e)
      | .ok r => .ok r.1)

theorem startsWith_iff (p l : Str) : startsWith p l = true ↔ p <+: l := by
  induction p generalizing l with
  | nil => simp [startsWith]
  | cons a as ih =>
    cases l with
    | nil => simp [startsWith]
    | cons b bs => simp [startsWith, List.cons_prefix_cons, ih]

theorem containsSub_iff (hay needle : Str) :
    containsSub hay needle = true ↔ needle <:+: hay := by
  induction hay with
  | nil => simp [containsSub]
  | cons c rest ih =>
    rw [containsSub]
    simp [startsWith_iff, ih, List.infix_cons_iff]

theorem splitOnceNl_some {s a b : Str} (h : splitOnceNl s = some (a, b)) :
    s = a ++ '\n' :: b ∧ '\n' ∉ a := by
  induction s generalizing a b with
  | nil => simp [splitOnceNl] at h
  | cons c rest ih =>
    rw [splitOnceNl] at h
    by_cases hc : c = '\n'
    · subst hc
      simp only [if_pos rfl, Option.some.injEq, Prod.mk.injEq] at h
      obtain ⟨rfl, rfl⟩ := h
      simp
    · rw [if_neg hc] at h
      cases hsp : splitOnceNl rest with
      | none => rw [hsp] at h; exact absurd h (by simp)
      | some ab =>
        obtain ⟨a1, b1⟩ := ab
        rw [hsp] at h
        simp only [Option.some.injEq, Prod.mk.injEq] at h
        obtain ⟨rfl, rfl⟩ := h
        obtain ⟨rfl, hnotin⟩ := ih hsp
        refine ⟨rfl, ?_⟩
        simp [hnotin, Ne.symm hc]

theorem splitOnceNl_none {s : Str} (h : splitOnceNl s = none) : '\n' ∉ s := by
  induction s with
  | nil => simp
  | cons c rest ih =>
    rw [splitOnceNl] at h
    by_cases hc : c = '\n'
    · rw [if_pos hc] at h; exact absurd h (by simp)
    · rw [if_neg hc] at h
      cases hsp : splitOnceNl rest with
      | none => simp [Ne.symm hc, ih hsp]
      | some ab => rw [hsp] at h; exact absurd h (by simp)

theorem firstLineOf_no_nl {s : Str} (h : '\n' ∉ s) : firstLineOf s = s := by
  induction s with
  | nil => rfl
  | cons c rest ih =>
    simp only [List.mem_cons, not_or] at h
    rw [firstLineOf, List.takeWhile_cons]
    simp only [decide_eq_true_eq]
    rw [if_pos (fun hc => h.1 hc.symm)]
    exact congrArg (c :: ·) (ih h.2)

theorem firstLineOf_append_nl {a : Str} (b : Str) (h : '\n' ∉ a) :
    firstLineOf (a ++ '\n' :: b) = a := by
  induction a with
  | nil => simp [firstLineOf]
  | cons c rest ih =>
    simp only [List.mem_cons, not_or] at h
    rw [List.cons_append, firstLineOf, List.takeWhile_cons]
    simp only [decide_eq_true_eq]
    rw [if_pos (fun hc => h.1 hc.symm)]
    exact congrArg (c :: ·) (ih h.2)

theorem splitOnNl_ne_nil (s : Str) : splitOnNl s ≠ [] := by
  induction s with
  | nil => simp [splitOnNl]
  | cons c rest ih =>
    rw [splitOnNl]
    by_cases hc : c = '\n'
    · simp [hc]
    · rw [if_neg hc]
      cases h : splitOnNl rest with
      | nil => simp
      | cons l ls => simp

theorem mem_splitOnNl_no_nl {s l : Str} (h : l ∈ splitOnNl s) : '\n' ∉ l := by
  induction s generalizing l with
  | nil =>
    rw [splitOnNl] at h
    simp only [List.mem_singleton] at h
    subst h; simp
  | cons c rest ih =>
    rw [splitOnNl] at h
    by_cases hc : c = '\n'
    · rw [if_pos hc] at h
      rcases List.mem_cons.mp h with rfl | h2
      · simp
      · exact ih h2
    · rw [if_neg hc] at h
      cases hs : splitOnNl rest with
      | nil => exact absurd hs (splitOnNl_ne_nil rest)
      | cons t ts =>
        rw [hs] at h
        rcases List.mem_cons.mp h with rfl | h2
        · intro hmem
          rcases List.mem_cons.mp hmem with h3 | h3
          · exact hc h3.symm
          · exact ih (hs ▸ List.mem_cons_self t ts) h3
        · exact ih (hs ▸ List.mem_cons_of_mem t h2)

theorem trimEnd_append_nl (a b : Str) :
    trimEndSpaceTab (a ++ '\n' :: b) = a ++ '\n' :: trimEndSpaceTab b := by
  induction a with
  | nil =>
    rw [List.nil_append, trimEndSpaceTab]
    cases htb : trimEndSpaceTab b with
    | nil => simp
    | cons r rs => simp
  | cons c rest ih =>
    rw [List.cons_append, trimEndSpaceTab, ih]
    cases hra : rest ++ '\n' :: trimEndSpaceTab b with
    | nil => exact absurd hra (by simp)
    | cons x xs => simpa using hra.symm

theorem trimEnd_eq_nil_iff (s : Str) :
    trimEndSpaceTab s = [] ↔ ∀ c ∈ s, c = ' ' ∨ c = '\t' := by
  induction s with
  | nil => simp [trimEndSpaceTab]
  | cons c rest ih =>
    rw [trimEndSpaceTab]
    cases ht : trimEndSpaceTab rest with
    | nil =>
      rw [ht] at ih
      by_cases hc : c = ' ' ∨ c = '\t'
      · have hb : (c = ' ' || c = '\t') = true := by
          rcases hc with h | h <;> simp [h]
        rw [if_pos hb]
        constructor
        · intro _ x hx
          rcases List.mem_cons.mp hx with rfl | hx2
          · exact hc
          · exact ih.mp rfl x hx2
        · intro _
          rfl
      · have hb : (c = ' ' || c = '\t') = false := by
          simp only [Bool.or_eq_false_iff, decide_eq_false_iff_not]
          exact ⟨fun h => hc (Or.inl h), fun h => hc (Or.inr h)⟩
        rw [if_neg (by simp [hb])]
        constructor
        · intro hfalse
          exact absurd hfalse (by simp)
        · intro hall
          exact absurd (hall c (List.mem_cons_self c rest)) hc
    | cons r rs =>
      rw [ht] at ih
      simp only [List.cons_ne_nil, false_iff] at ih ⊢
      push_neg at ih
      obtain ⟨x, hx, hx2⟩ := ih
      intro hall
      rcases hall x (List.mem_cons_of_mem c hx) with h | h
      · exact hx2.1 h
      · exact hx2.2 h

theorem trimEnd_prefixOf (s : Str) : trimEndSpaceTab s <+: s := by
  induction s with
  | nil => simp [trimEndSpaceTab]
  | cons c rest ih =>
    rw [trimEndSpaceTab]
    cases ht : trimEndSpaceTab rest with
    | nil =>
      by_cases hc : (c = ' ' || c = '\t') = true
      · rw [if_pos hc]
        exact List.nil_prefix
      · rw [if_neg hc]
        exact ⟨rest, rfl⟩
    | cons r rs =>
      rw [ht] at ih
      exact List.cons_prefix_cons.mpr ⟨rfl, ih⟩

theorem trimEnd_no_nl {s : Str} (h : '\n' ∉ s) : '\n' ∉ trimEndSpaceTab s :=
  fun hmem => h ((trimEnd_prefixOf s).subset hmem)

theorem trimEnd_cons_ne_nil {c : Char} (l : Str) (h1 : c ≠ ' ') (h2 : c ≠ '\t') :
    trimEndSpaceTab (c :: l) ≠ [] := by
  intro hnil
  rcases (trimEnd_eq_nil_iff (c :: l)).mp hnil c (List.mem_cons_self c l) with h | h
  · exact h1 h
  · exact h2 h

theorem wrap_fold_eq (cp : Str) (lines : List Str) (out0 : Str)
    (h : out0 = [] ∨ ∃ w, out0 = w ++ ['\n']) :
    lines.foldl (fun acc line => trimEndSpaceTab (acc ++ cp ++ line) ++ ['\n']) out0
      = out0 ++ (lines.map (fun line => trimEndSpaceTab (cp ++ line) ++ ['\n'])).flatten := by
  induction lines generalizing out0 with
  | nil => simp
  | cons l ls ih =>
    rw [List.foldl_cons]
    have hstep : trimEndSpaceTab (out0 ++ cp ++ l) ++ ['\n']
        = out0 ++ (trimEndSpaceTab (cp ++ l) ++ ['\n']) := by
      rcases h with rfl | ⟨w, rfl⟩
      · simp
      · have h1 : (w ++ ['\n']) ++ cp ++ l = w ++ '\n' :: (cp ++ l) := by simp
        rw [h1, trimEnd_append_nl]
        simp
    rw [hstep, ih (out0 ++ (trimEndSpaceTab (cp ++ l) ++ ['\n']))
      (Or.inr ⟨out0 ++ trimEndSpaceTab (cp ++ l), by simp⟩)]
    simp

theorem wrap_header_eq_spec (h : Str) (d : HeaderDelimiters) :
    wrap_header h d = wrap_header_spec h d := by
  obtain ⟨fl, cp, ll⟩ := d
  simp only [wrap_header, wrap_header_spec]
  rw [wrap_fold_eq cp (splitOnNl h) (if fl = [] then [] else fl ++ ['\n'])]
  · by_cases hll : ll = []
    · rw [if_pos hll, if_pos hll]
      simp
    · rw [if_neg hll, if_neg hll]
      simp
  · by_cases hfl : fl = []
    · rw [if_pos hfl]
      exact Or.inl rfl
    · rw [if_neg hfl]
      exact Or.inr ⟨fl, rfl⟩

/-- Structural facts shared by every delimiter set in the table: no newline in
the prefix line or the per-line comment marker, and when the prefix line is
empty the per-line marker starts with a character that trailing-whitespace
trimming keeps. -/
def GoodDelim (d : HeaderDelimiters) : Prop :=
  match d with
  | ⟨fl, cp, _⟩ =>
    '\n' ∉ fl ∧ '\n' ∉ cp ∧
    (fl = [] → cp ≠ [] ∧ ∀ c ∈ cp.take 1, c ≠ ' ' ∧ c ≠ '\t')

set_option maxHeartbeats 2000000 in
theorem header_delimiters_good {p : Str} {d : HeaderDelimiters}
    (h : header_delimiters p = some d) : GoodDelim d := by
  simp only [header_delimiters] at h
  repeat' split at h
  all_goals
    first
      | (simp only [Option.some.injEq] at h; subst h;
         exact ⟨by decide, by decide, by decide⟩)
      | exact absurd h (by simp)

theorem flatten_nl_blocks (f : Str → Str) (L : List Str) (hL : L ≠ []) :
    ∃ W, (L.map (fun x => f x ++ ['\n'])).flatten = W ++ ['\n'] := by
  induction L with
  | nil => exact absurd rfl hL
  | cons a t ih =>
    cases t with
    | nil => exact ⟨f a, by simp⟩
    | cons b t2 =>
      obtain ⟨W, hW⟩ := ih (by simp)
      refine ⟨f a ++ ['\n'] ++ W, ?_⟩
      rw [List.map_cons, List.flatten_cons, hW]
      simp

theorem wrap_ends_nl (h : Str) (d : HeaderDelimiters) :
    ∃ W, wrap_header h d = W ++ ['\n'] := by
  obtain ⟨fl, cp, ll⟩ := d
  rw [wrap_header_eq_spec, wrap_header_spec]
  by_cases hll : ll = []
  · rw [if_pos hll]
    obtain ⟨W, hW⟩ := flatten_nl_blocks (fun line => trimEndSpaceTab (cp ++ line))
      (splitOnNl h) (splitOnNl_ne_nil h)
    refine ⟨(if fl = [] then [] else fl ++ ['\n']) ++ W, ?_⟩
    rw [hW]
    simp
  · rw [if_neg hll]
    refine ⟨(if fl = [] then [] else fl ++ ['\n'])
      ++ ((splitOnNl h).map (fun line => trimEndSpaceTab (cp ++ line) ++ ['\n'])).flatten
      ++ ll, ?_⟩
    simp

theorem wrap_first_line (h : Str) {d : HeaderDelimiters} (hg : GoodDelim d) :
    ∃ L M, wrap_header h d = L ++ '\n' :: M ∧ L ≠ [] ∧ '\n' ∉ L := by
  obtain ⟨fl, cp, ll⟩ := d
  obtain ⟨hfl_nl, hcp_nl, hweak⟩ := hg
  rw [wrap_header_eq_spec, wrap_header_spec]
  by_cases hfl : fl = []
  · obtain ⟨hcp_ne, hcp_head⟩ := hweak hfl
    rw [if_pos hfl, List.nil_append]
    cases hsp : splitOnNl h with
    | nil => exact absurd hsp (splitOnNl_ne_nil h)
    | cons l0 ls =>
      refine ⟨trimEndSpaceTab (cp ++ l0),
        ((ls.map (fun line => trimEndSpaceTab (cp ++ line) ++ ['\n'])).flatten
          ++ (if ll = [] then [] else ll ++ ['\n'])), ?_, ?_, ?_⟩
      · rw [List.map_cons, List.flatten_cons]
        simp
      · cases cp with
        | nil => exact absurd rfl hcp_ne
        | cons c cs =>
          have hc := hcp_head c (by simp)
          rw [List.cons_append]
          exact trimEnd_cons_ne_nil (cs ++ l0) hc.1 hc.2
      · refine trimEnd_no_nl ?_
        intro hmem
        rcases List.mem_append.mp hmem with hm | hm
        · exact hcp_nl hm
        · exact mem_splitOnNl_no_nl (hsp ▸ List.mem_cons_self l0 ls) hm
  · rw [if_neg hfl]
    refine ⟨fl,
      ((splitOnNl h).map (fun line => trimEndSpaceTab (cp ++ line) ++ ['\n'])).flatten
        ++ (if ll = [] then [] else ll ++ ['\n']), ?_, hfl, hfl_nl⟩
    simp

theorem removeFirst_at_zero (pat t : Str) : removeFirst pat (pat ++ t) = t := by
  cases pat with
  | nil =>
    cases t with
    | nil => rfl
    | cons x xs =>
      rw [List.nil_append, removeFirst]
      have : startsWith [] (x :: xs) = true := by rw [startsWith_iff]; exact ⟨x :: xs, rfl⟩
      rw [if_pos this]
      simp
  | cons c ps =>
    rw [List.cons_append, removeFirst]
    have : startsWith (c :: ps) (c :: (ps ++ t)) = true := by
      rw [startsWith_iff]
      exact ⟨t, by simp⟩
    rw [if_pos this]
    have : c :: (ps ++ t) = (c :: ps) ++ t := by simp
    rw [this, List.drop_left]

theorem removeFirst_no_early (pat a c : Str)
    (hnp : ∀ i, i < a.length → ¬ pat <+: (a ++ pat ++ c).drop i) :
    removeFirst pat (a ++ pat ++ c) = a ++ c := by
  induction a with
  | nil => simpa using removeFirst_at_zero pat c
  | cons x a2 ih =>
    have hform : (x :: a2) ++ pat ++ c = x :: (a2 ++ pat ++ c) := by simp
    rw [hform, removeFirst]
    have h0 : ¬ startsWith pat (x :: (a2 ++ pat ++ c)) = true := by
      intro hs
      exact hnp 0 (by simp) (by simpa [hform, startsWith_iff] using hs)
    rw [if_neg h0, ih]
    · simp
    · intro i hi
      have := hnp (i + 1) (by simpa using Nat.succ_lt_succ hi)
      simpa [hform] using this

theorem removeFirst_spec {pat : Str} (hne : pat ≠ []) {c : Str} (hin : pat <:+: c) :
    ∃ a b, c = a ++ pat ++ b ∧ (∀ i, i < a.length → ¬ pat <+: c.drop i) ∧
      removeFirst pat c = a ++ b := by
  induction c with
  | nil =>
    rw [List.infix_nil] at hin
    exact absurd hin hne
  | cons x r ih =>
    by_cases hsw : startsWith pat (x :: r) = true
    · obtain ⟨t, ht⟩ := (startsWith_iff pat (x :: r)).mp hsw
      refine ⟨[], t, by simpa using ht.symm, by simp, ?_⟩
      rw [removeFirst, if_pos hsw, ← ht, List.drop_left]
      simp
    · have hinr : pat <:+: r := by
        obtain ⟨s, t, hst⟩ := hin
        cases s with
        | nil =>
          exfalso
          apply hsw
          rw [startsWith_iff]
          exact ⟨t, by simpa using hst⟩
        | cons y s2 =>
          have : r = s2 ++ pat ++ t := by
            have := hst
            simp only [List.cons_append] at this
            exact (List.cons.injEq _ _ _ _ ▸ this).2.symm ▸ rfl
          exact ⟨s2, t, this.symm⟩
      obtain ⟨a, b, hc, hmin, hrem⟩ := ih hinr
      refine ⟨x :: a, b, by simp [hc], ?_, ?_⟩
      · intro i hi
        cases i with
        | zero =>
          intro hp
          exact hsw ((startsWith_iff pat (x :: r)).mpr (by simpa using hp))
        | succ j =>
          have hj : j < a.length := by simpa using Nat.lt_of_succ_lt_succ hi
          intro hp
          exact hmin j hj (by simpa using hp)
      · rw [removeFirst, if_neg hsw, hrem]
        simp

/-- Core combinatorial fact behind round-trip deletion: writing the block after
a preserved (newline-free) magic first line cannot create an occurrence of the
block earlier than the written one. The block's first line `L` is non-empty and
newline-free, and the block ends in two newlines; an earlier overlapping match
would force the block to be periodic with the period of its first line, which
its double-newline tail contradicts. -/
theorem no_early_block_occurrence
    {first L M W rest block : Str}
    (hfirst : '\n' ∉ first) (hLne : L ≠ []) (hLnl : '\n' ∉ L)
    (hLM : block = L ++ '\n' :: M) (hW : block = W ++ ['\n', '\n']) :
    ∀ i, i < (first ++ ['\n']).length →
      ¬ block <+: ((first ++ ['\n']) ++ block ++ rest).drop i := by
  intro i hi hpre
  set content := (first ++ ['\n']) ++ block ++ rest with hcontent
  have hcontent2 : content = first ++ '\n' :: (block ++ rest) := by
    simp [hcontent]
  obtain ⟨t, ht⟩ := hpre
  have hidx : ∀ k, k < block.length → content[i + k]? = block[k]? := by
    intro k hk
    rw [← List.getElem?_drop, ← ht, List.getElem?_append_left hk]
  set F := first.length with hF
  have hiF : i ≤ F := by
    simp only [List.length_append, List.length_cons, List.length_nil] at hi
    omega
  have hLlen : L.length < block.length := by
    rw [hLM]
    simp only [List.length_append, List.length_cons]
    omega
  have hblock_at_L : block[L.length]? = some '\n' := by
    rw [hLM, List.getElem?_append_right (Nat.le_refl L.length)]
    simp
  have hcontent_first : ∀ j, j < F → content[j]? = first[j]? := by
    intro j hj
    rw [hcontent2, List.getElem?_append_left hj]
  have hcontent_nl : content[F]? = some '\n' := by
    rw [hcontent2, List.getElem?_append_right (Nat.le_refl F)]
    simp [hF]
  have hcontent_late : ∀ j, F < j → content[j]? = (block ++ rest)[j - F - 1]? := by
    intro j hj
    rw [hcontent2, List.getElem?_append_right (by omega : first.length ≤ j)]
    have : j - first.length = (j - F - 1) + 1 := by omega
    rw [this]
    simp
  -- Step B: the match must align the block's first newline with the one after
  -- the magic line, so i + L.length = F.
  have hstepB : i + L.length = F := by
    have hB := hidx L.length hLlen
    rw [hblock_at_L] at hB
    rcases Nat.lt_trichotomy (i + L.length) F with hlt | heq | hgt
    · rw [hcontent_first _ hlt] at hB
      exact absurd (List.getElem?_mem hB) hfirst
    · exact heq
    · exfalso
      rw [hcontent_late _ hgt] at hB
      have hq : i + L.length - F - 1 < L.length := by omega
      rw [List.getElem?_append_left (by omega : i + L.length - F - 1 < block.length)] at hB
      rw [hLM, List.getElem?_append_left hq] at hB
      exact absurd (List.getElem?_mem hB) hLnl
  set p := L.length + 1 with hp
  -- Step C: the tail of the block overlaps the block itself, giving period p.
  have hper : ∀ k, p ≤ k → k < block.length → block[k]? = block[k - p]? := by
    intro k hpk hk
    have h1 := hidx k hk
    have h2 : F < i + k := by omega
    rw [hcontent_late _ h2] at h1
    have h3 : i + k - F - 1 = k - p := by omega
    rw [h3] at h1
    rw [← h1, List.getElem?_append_left (by omega : k - p < block.length)]
  -- Step D: full periodicity modulo p.
  have hmod : ∀ k, k < block.length → block[k]? = block[k % p]? := by
    intro k
    induction k using Nat.strong_induction_on with
    | _ k ih =>
      intro hk
      by_cases hkp : k < p
      · rw [Nat.mod_eq_of_lt hkp]
      · push_neg at hkp
        rw [hper k hkp hk, ih (k - p) (by omega) (by omega),
          Nat.mod_eq_sub_mod hkp]
  -- Step E: the block ends in two newlines, which forces p = 1, contradicting
  -- the non-empty first line.
  have hn2 : 2 ≤ block.length := by
    rw [hW]
    simp
  have hWlen : block.length = W.length + 2 := by
    rw [hW]
    simp
  have hlast1 : block[block.length - 1]? = some '\n' := by
    have hb : block.length - 1 = W.length + 1 := by omega
    rw [hb, hW, List.getElem?_append_right (by omega : W.length ≤ W.length + 1)]
    have : W.length + 1 - W.length = 1 := by omega
    rw [this]
    rfl
  have hlast2 : block[block.length - 2]? = some '\n' := by
    have hb : block.length - 2 = W.length := by omega
    rw [hb, hW, List.getElem?_append_right (Nat.le_refl W.length)]
    have : W.length - W.length = 0 := by omega
    rw [this]
    rfl
  have hchar : ∀ j, j < p → block[j]? = some '\n' → j = L.length := by
    intro j hj hval
    rcases Nat.lt_or_ge j L.length with hjL | hjL
    · exfalso
      rw [hLM, List.getElem?_append_left hjL] at hval
      exact absurd (List.getElem?_mem hval) hLnl
    · omega
  have hppos : 0 < p := by omega
  have hm1 : (block.length - 1) % p = L.length :=
    hchar _ (Nat.mod_lt _ hppos)
      (by rw [← hmod _ (by omega)]; exact hlast1)
  have hm2 : (block.length - 2) % p = L.length :=
    hchar _ (Nat.mod_lt _ hppos)
      (by rw [← hmod _ (by omega)]; exact hlast2)
  have hmodeq : Nat.ModEq p (block.length - 2) (block.length - 1) := by
    unfold Nat.ModEq
    rw [hm1, hm2]
  have hdvd : p ∣ (block.length - 1) - (block.length - 2) :=
    (Nat.modEq_iff_dvd' (by omega)).mp hmodeq
  have hone : (block.length - 1) - (block.length - 2) = 1 := by omega
  rw [hone] at hdvd
  have hp1 : p = 1 := Nat.dvd_one.mp hdvd
  have : L.length = 0 := by omega
  exact hLne (List.length_eq_zero.mp this)

theorem delete_removes {H : Header} {p mid : Str} {d : HeaderDelimiters}
    (hpres : H.check mid = true) (hd : header_delimiters p = some d)
    (hinf : (wrap_header H.header d ++ ['\n']) <:+: mid) :
    delete_header_if_present H p (.text mid)
      = .ok (true, removeFirst (wrap_header H.header d ++ ['\n']) mid) := by
  have hct : containsSub mid (wrap_header H.header d ++ ['\n']) = true :=
    (containsSub_iff _ _).mpr hinf
  simp only [delete_header_if_present, read_to_string, Header.header_present,
    hpres, hd, hct, Bool.not_true, Bool.false_eq_true, if_false]

theorem delete_no_block {H : Header} {p c : Str} {d : HeaderDelimiters}
    (hpres : H.check c = true) (hd : header_delimiters p = some d)
    (hninf : ¬ (wrap_header H.header d ++ ['\n']) <:+: c) :
    delete_header_if_present H p (.text c) = .ok (false, c) := by
  have hct : containsSub c (wrap_header H.header d ++ ['\n']) = false := by
    rw [← Bool.not_eq_true, containsSub_iff]
    exact hninf
  simp only [delete_header_if_present, read_to_string, Header.header_present,
    hpres, hd, hct, Bool.not_true, Bool.false_eq_true, if_false, Bool.not_false, if_true]

theorem add_no_magic_case {H : Header} {p contents : Str} {d : HeaderDelimiters}
    (hfree : H.check contents = false) (hd : header_delimiters p = some d)
    (hno : ∀ fr, splitOnceNl contents = some fr →
      MAGIC_FIRST_LINES.any (fun l => containsSub fr.1 l) = false) :
    add_header_if_missing H p (.text contents)
      = .ok (true, wrap_header H.header d ++ '\n' :: contents) := by
  simp only [add_header_if_missing, read_to_string, Header.header_present, hfree,
    Bool.false_eq_true, if_false, hd]
  cases hsp : splitOnceNl contents with
  | none => simp
  | some fr =>
    obtain ⟨first, rest⟩ := fr
    have hm := hno (first, rest) hsp
    simp only at hm
    simp [hm]

theorem add_magic_case {H : Header} {p contents first rest : Str}
    {d : HeaderDelimiters}
    (hfree : H.check contents = false) (hd : header_delimiters p = some d)
    (hsp : splitOnceNl contents = some (first, rest))
    (hmag : MAGIC_FIRST_LINES.any (fun l => containsSub first l) = true) :
    add_header_if_missing H p (.text contents)
      = .ok (true, first ++ '\n' :: (wrap_header H.header d ++ '\n' :: rest)) := by
  simp only [add_header_if_missing, read_to_string, Header.header_present, hfree,
    Bool.false_eq_true, if_false, hd, hsp, hmag, if_true]
  simp

/-- C1 (amended): for a file whose content the checker reports header-free and
whose path has a recognised delimiter mapping, `add_header_if_missing` rewrites
the file and returns changed=true, and — provided the checker reports the
header present on the content the addition produced — a subsequent
`delete_header_if_present` restores the original content byte-for-byte and
returns changed=true. -/
theorem C1_add_then_delete_round_trip (H : Header) (p contents : Str)
    (d : HeaderDelimiters)
    (hfree : H.check contents = false) (hd : header_delimiters p = some d) :
    ∃ mid, add_header_if_missing H p (.text contents) = .ok (true, mid) ∧
      (H.check mid = true →
        delete_header_if_present H p (.text mid) = .ok (true, contents)) := by
  obtain ⟨W0, hW0⟩ := wrap_ends_nl H.header d
  by_cases hmagic : ∃ first rest, splitOnceNl contents = some (first, rest) ∧
      MAGIC_FIRST_LINES.any (fun l => containsSub first l) = true
  · obtain ⟨first, rest, hsp, hmag⟩ := hmagic
    obtain ⟨hcont, hfnl⟩ := splitOnceNl_some hsp
    refine ⟨first ++ '\n' :: (wrap_header H.header d ++ '\n' :: rest),
      add_magic_case hfree hd hsp hmag, ?_⟩
    intro hpres
    have hinf : (wrap_header H.header d ++ ['\n'])
        <:+: first ++ '\n' :: (wrap_header H.header d ++ '\n' :: rest) :=
      ⟨first ++ ['\n'], rest, by simp⟩
    have hshape : first ++ '\n' :: (wrap_header H.header d ++ '\n' :: rest)
        = (first ++ ['\n']) ++ (wrap_header H.header d ++ ['\n']) ++ rest := by
      simp
    rw [delete_removes hpres hd hinf, hshape, removeFirst_no_early, hcont]
    · simp
    · obtain ⟨L, M0, hLM0, hLne, hLnl⟩ :=
        wrap_first_line H.header (header_delimiters_good hd)
      have hblockL : wrap_header H.header d ++ ['\n'] = L ++ '\n' :: (M0 ++ ['\n']) := by
        rw [hLM0]
        simp
      have hblockW : wrap_header H.header d ++ ['\n'] = W0 ++ ['\n', '\n'] := by
        rw [hW0]
        simp
      exact no_early_block_occurrence hfnl hLne hLnl hblockL hblockW
  · refine ⟨wrap_header H.header d ++ '\n' :: contents, ?_, ?_⟩
    · apply add_no_magic_case hfree hd
      intro fr hsp
      rcases Bool.eq_false_or_eq_true
          (MAGIC_FIRST_LINES.any (fun l => containsSub fr.1 l)) with hb | hb
      · exact absurd ⟨fr.1, fr.2, by simpa using hsp, hb⟩ hmagic
      · exact hb
    · intro hpres
      have hinf : (wrap_header H.header d ++ ['\n'])
          <:+: wrap_header H.header d ++ '\n' :: contents :=
        ⟨[], contents, by simp⟩
      rw [delete_removes hpres hd hinf]
      have hshape : wrap_header H.header d ++ '\n' :: contents
          = (wrap_header H.header d ++ ['\n']) ++ contents := by simp
      rw [hshape, removeFirst_at_zero]

theorem header_delimiters_eq_spec (p : Str) :
    header_delimiters p = spec_header_delimiters p := by
  simp only [header_delimiters, spec_header_delimiters]
  generalize (fileExtension p).getD [] = e
  by_cases h1 : e ∈ exts_slash_star
  · simp [h1]
  · by_cases h2 : e ∈ exts_doc_star
    · simp [h1, h2]
    · by_cases hphp : e = ("php".toList)
      · subst hphp
        rfl
      · by_cases h3 : e ∈ exts_slash_slash
        · have h3b : e ∈ exts_slash_slash ++ [("php".toList)] := by
            simp [h3]
          simp [h1, h2, h3, h3b]
        · have h3b : e ∉ exts_slash_slash ++ [("php".toList)] := by
            simp only [List.mem_append, List.mem_singleton]
            rintro (h | h)
            · exact h3 h
            · exact hphp h
          rw [if_neg h1, if_neg h1, if_neg h2, if_neg h2, if_neg h3, if_neg h3b,
            if_neg hphp]

/-- A concrete header whose checker looks for a pattern (`A`) that does occur
in the header text, within the first 10 lines. -/
def exHeaderA : Header :=
  ⟨fun s => SingleLineChecker.check ⟨("A".toList), 10⟩ s, ("A".toList)⟩

/-- A concrete header whose checker looks for a pattern (`Z`) that does NOT
occur in the header text `A`. -/
def exHeaderZ : Header :=
  ⟨fun s => SingleLineChecker.check ⟨("Z".toList), 10⟩ s, ("A".toList)⟩

/-- C3: `wrap_header` equals the declarative form from the specification
(prefix line + newline when non-empty; each header line as the per-line prefix
plus the line, trimmed of trailing spaces and tabs, plus newline; suffix line +
newline when non-empty), and the spec's concrete examples: `"L1\nL2"` wrapped
for extension `c` and for extension `py`, and a blank header line under the
`"/*"` / `" * "` / `" */"` delimiters collapsing to `" *"`. -/
theorem C3_wrap_header_correct :
    (∀ h d, wrap_header h d = wrap_header_spec h d) ∧
    (header_delimiters ("f.c".toList)).map (fun d => wrap_header ("L1\nL2".toList) d)
      = some ("/*\n * L1\n * L2\n */\n".toList) ∧
    (header_delimiters ("f.py".toList)).map (fun d => wrap_header ("L1\nL2".toList) d)
      = some ("# L1\n# L2\n".toList) ∧
    wrap_header ("A\n\nB".toList) ⟨("/*".toList), (" * ".toList), (" */".toList)⟩
      = ("/*\n * A\n *\n * B\n */\n".toList) :=
  ⟨wrap_header_eq_spec, rfl, rfl, rfl⟩

/-- C4 (amended): the delimiter lookup agrees with the spec's table at every
path (extension lookup first, case-sensitive, then the `Dockerfile` filename
fallback, otherwise no mapping); for a path with no mapping,
`add_header_if_missing` fails with `UnrecognizedExtension` when the checker
reports the header absent (and no-ops with changed=false when it reports it
present), and `delete_header_if_present` fails with `UnrecognizedExtension`
when the checker reports the header present (and no-ops with changed=false
when it reports it absent). -/
theorem C4_delimiter_table (p : Str) (H : Header) (c : Str) :
    header_delimiters p = spec_header_delimiters p ∧
    (header_delimiters p = none →
      (H.check c = false →
        add_header_if_missing H p (.text c) = .error (.unrecognizedExtension p)) ∧
      (H.check c = true → add_header_if_missing H p (.text c) = .ok (false, c)) ∧
      (H.check c = true →
        delete_header_if_present H p (.text c) = .error (.unrecognizedExtension p)) ∧
      (H.check c = false →
        delete_header_if_present H p (.text c) = .ok (false, c))) := by
  refine ⟨header_delimiters_eq_spec p, fun hnone => ⟨?_, ?_, ?_, ?_⟩⟩
  · intro hfree
    simp only [add_header_if_missing, read_to_string, Header.header_present,
      hfree, Bool.false_eq_true, if_false, hnone]
  · intro hpres
    simp only [add_header_if_missing, read_to_string, Header.header_present,
      hpres, if_true]
  · intro hpres
    simp only [delete_header_if_present, read_to_string, Header.header_present,
      hpres, Bool.not_true, Bool.false_eq_true, if_false, hnone]
  · intro hfree
    simp only [delete_header_if_present, read_to_string, Header.header_present,
      hfree, Bool.not_false, if_true]

/-- C4 as frozen is refuted: the path `x.zzz` has no delimiter mapping, yet
`add_header_if_missing` does not fail with `UnrecognizedExtension` on a file
whose header the checker already reports present — it no-ops. -/
theorem C4_counterexample :
    header_delimiters ("x.zzz".toList) = none ∧
    add_header_if_missing exHeaderA ("x.zzz".toList) (.text ("A\n".toList))
      = .ok (false, ("A\n".toList)) ∧
    add_header_if_missing exHeaderA ("x.zzz".toList) (.text ("A\n".toList))
      ≠ .error (.unrecognizedExtension ("x.zzz".toList)) :=
  ⟨rfl, rfl, fun h => Except.noConfusion h⟩

theorem C4_witness :
    header_delimiters ("x.zzz".toList) = none ∧
    exHeaderZ.check ("A\n".toList) = false ∧
    add_header_if_missing exHeaderZ ("x.zzz".toList) (.text ("A\n".toList))
      = .error (.unrecognizedExtension ("x.zzz".toList)) :=
  ⟨rfl, rfl,
    ((C4_delimiter_table ("x.zzz".toList) exHeaderZ ("A\n".toList)).2 rfl).1 rfl⟩

/-- C1 as frozen is refuted: with a checker whose pattern (`Z`) does not occur
in the wrapped header, the file is header-free and `x.py` has a delimiter
mapping, `add_header_if_missing` succeeds with changed=true, yet the following
`delete_header_if_present` returns changed=false and leaves the added header
in place, so the original content is not restored. -/
theorem C1_counterexample :
    exHeaderZ.check ("hi\n".toList) = false ∧
    header_delimiters ("x.py".toList) = some ⟨[], ("# ".toList), []⟩ ∧
    add_header_if_missing exHeaderZ ("x.py".toList) (.text ("hi\n".toList))
      = .ok (true, ("# A\n\nhi\n".toList)) ∧
    delete_header_if_present exHeaderZ ("x.py".toList) (.text ("# A\n\nhi\n".toList))
      = .ok (false, ("# A\n\nhi\n".toList)) :=
  ⟨rfl, rfl, rfl, rfl⟩

theorem C1_witness :
    exHeaderA.check ("hi\n".toList) = false ∧
    header_delimiters ("x.py".toList) = some ⟨[], ("# ".toList), []⟩ ∧
    (∃ mid, add_header_if_missing exHeaderA ("x.py".toList) (.text ("hi\n".toList))
        = .ok (true, mid) ∧
      (exHeaderA.check mid = true →
        delete_header_if_present exHeaderA ("x.py".toList) (.text mid)
          = .ok (true, ("hi\n".toList)))) ∧
    exHeaderA.check ("# A\n\nhi\n".toList) = true :=
  ⟨rfl, rfl,
    C1_add_then_delete_round_trip exHeaderA ("x.py".toList) ("hi\n".toList)
      ⟨[], ("# ".toList), []⟩ rfl rfl, rfl⟩

/-- C2: when the checker reports the header present and the path has a
delimiter mapping, deletion reconstructs the exact block `wrap_header ++ "\n"`;
when that block is not a substring the file is unchanged and changed=false is
returned; when it is, exactly the first occurrence is removed (nothing before
the removal point matches the block, and everything after the removed block is
kept verbatim) and changed=true is returned. -/
theorem C2_delete_exact_block (H : Header) (p c : Str) (d : HeaderDelimiters)
    (hpres : H.check c = true) (hd : header_delimiters p = some d) :
    (¬ (wrap_header H.header d ++ ['\n']) <:+: c →
      delete_header_if_present H p (.text c) = .ok (false, c)) ∧
    ((wrap_header H.header d ++ ['\n']) <:+: c →
      ∃ a b, c = a ++ (wrap_header H.header d ++ ['\n']) ++ b ∧
        (∀ i, i < a.length → ¬ (wrap_header H.header d ++ ['\n']) <+: c.drop i) ∧
        delete_header_if_present H p (.text c) = .ok (true, a ++ b)) := by
  constructor
  · intro hninf
    exact delete_no_block hpres hd hninf
  · intro hinf
    obtain ⟨a, b, hcab, hmin, hrem⟩ := removeFirst_spec (by simp) hinf
    exact ⟨a, b, hcab, hmin, by rw [delete_removes hpres hd hinf, hrem]⟩

theorem C2_witness :
    exHeaderA.check ("x\n# A\n\ny# A\n\n".toList) = true ∧
    header_delimiters ("x.py".toList) = some ⟨[], ("# ".toList), []⟩ ∧
    ((¬ (wrap_header exHeaderA.header ⟨[], ("# ".toList), []⟩ ++ ['\n'])
        <:+: ("x\n# A\n\ny# A\n\n".toList) →
      delete_header_if_present exHeaderA ("x.py".toList)
          (.text ("x\n# A\n\ny# A\n\n".toList))
        = .ok (false, ("x\n# A\n\ny# A\n\n".toList))) ∧
    ((wrap_header exHeaderA.header ⟨[], ("# ".toList), []⟩ ++ ['\n'])
        <:+: ("x\n# A\n\ny# A\n\n".toList) →
      ∃ a b, ("x\n# A\n\ny# A\n\n".toList)
          = a ++ (wrap_header exHeaderA.header ⟨[], ("# ".toList), []⟩ ++ ['\n']) ++ b ∧
        (∀ i, i < a.length →
          ¬ (wrap_header exHeaderA.header ⟨[], ("# ".toList), []⟩ ++ ['\n'])
            <+: ("x\n# A\n\ny# A\n\n".toList).drop i) ∧
        delete_header_if_present exHeaderA ("x.py".toList)
            (.text ("x\n# A\n\ny# A\n\n".toList))
          = .ok (true, a ++ b))) ∧
    delete_header_if_present exHeaderA ("x.py".toList)
        (.text ("x\n# A\n\ny# A\n\n".toList))
      = .ok (true, ("x\ny# A\n\n".toList)) :=
  ⟨rfl, rfl,
    C2_delete_exact_block exHeaderA ("x.py".toList) ("x\n# A\n\ny# A\n\n".toList)
      ⟨[], ("# ".toList), []⟩ rfl rfl, rfl⟩

/-- C5 (amended): for a header-free file with a delimiter mapping, when the
file's first line is newline-terminated and contains a magic marker,
`add_header_if_missing` keeps that line as line 1 and inserts the wrapped
header starting at line 2; when the first line contains no marker, the wrapped
header starts at line 1. (A marker in a final line that has no terminating
newline is not preserved; see the counterexample.) -/
theorem C5_magic_first_line (H : Header) (p contents : Str) (d : HeaderDelimiters)
    (hfree : H.check contents = false) (hd : header_delimiters p = some d) :
    (∀ first rest, splitOnceNl contents = some (first, rest) →
      MAGIC_FIRST_LINES.any (fun l => containsSub first l) = true →
      add_header_if_missing H p (.text contents)
        = .ok (true, first ++ '\n' :: (wrap_header H.header d ++ '\n' :: rest))) ∧
    (MAGIC_FIRST_LINES.any (fun l => containsSub (firstLineOf contents) l) = false →
      add_header_if_missing H p (.text contents)
        = .ok (true, wrap_header H.header d ++ '\n' :: contents)) := by
  constructor
  · intro first rest hsp hmag
    exact add_magic_case hfree hd hsp hmag
  · intro hnom
    apply add_no_magic_case hfree hd
    intro fr hsp
    obtain ⟨hcont, hfnl⟩ := splitOnceNl_some hsp
    have : firstLineOf contents = fr.1 := by
      rw [hcont]
      exact firstLineOf_append_nl fr.2 hfnl
    rw [← this]
    exact hnom

/-- C5 as frozen is refuted: the file `a.sh` consisting of the single line
`#!/bin/sh` with no terminating newline contains a magic marker in its first
line, yet `add_header_if_missing` writes the wrapped header first and the
shebang is no longer line 1. -/
theorem C5_counterexample :
    containsSub ("#!/bin/sh".toList) ("#!".toList) = true ∧
    exHeaderA.check ("#!/bin/sh".toList) = false ∧
    add_header_if_missing exHeaderA ("a.sh".toList) (.text ("#!/bin/sh".toList))
      = .ok (true, ("# A\n\n#!/bin/sh".toList)) ∧
    firstLineOf ("# A\n\n#!/bin/sh".toList) ≠ ("#!/bin/sh".toList) :=
  ⟨rfl, rfl, rfl, by decide⟩

theorem C5_witness :
    exHeaderA.check ("#!/bin/sh\nhi\n".toList) = false ∧
    header_delimiters ("a.sh".toList) = some ⟨[], ("# ".toList), []⟩ ∧
    splitOnceNl ("#!/bin/sh\nhi\n".toList) = some (("#!/bin/sh".toList), ("hi\n".toList)) ∧
    MAGIC_FIRST_LINES.any (fun l => containsSub ("#!/bin/sh".toList) l) = true ∧
    add_header_if_missing exHeaderA ("a.sh".toList) (.text ("#!/bin/sh\nhi\n".toList))
      = .ok (true, ("#!/bin/sh".toList) ++ '\n' ::
          (wrap_header exHeaderA.header ⟨[], ("# ".toList), []⟩ ++ '\n' :: ("hi\n".toList))) :=
  ⟨rfl, rfl, rfl, rfl,
    (C5_magic_first_line exHeaderA ("a.sh".toList) ("#!/bin/sh\nhi\n".toList)
        ⟨[], ("# ".toList), []⟩ rfl rfl).1
      ("#!/bin/sh".toList) ("hi\n".toList) rfl rfl⟩

/-- C6 (amended): a second `add_header_if_missing` on the content produced by a
first call returns changed=false and leaves the content unchanged, provided the
checker reports the header present on that content. -/
theorem C6_add_idempotent (H : Header) (p c1 mid : Str) (b : Bool)
    (_h1 : add_header_if_missing H p (.text c1) = .ok (b, mid))
    (hdet : H.check mid = true) :
    add_header_if_missing H p (.text mid) = .ok (false, mid) := by
  simp only [add_header_if_missing, read_to_string, Header.header_present,
    hdet, if_true]

/-- C6 as frozen is refuted: with a checker whose pattern (`Z`) never occurs in
the header it adds, the second call adds the header again, returning
changed=true and different content. -/
theorem C6_counterexample :
    add_header_if_missing exHeaderZ ("x.py".toList) (.text ("hi\n".toList))
      = .ok (true, ("# A\n\nhi\n".toList)) ∧
    add_header_if_missing exHeaderZ ("x.py".toList) (.text ("# A\n\nhi\n".toList))
      = .ok (true, ("# A\n\n# A\n\nhi\n".toList)) :=
  ⟨rfl, rfl⟩

theorem C6_witness :
    add_header_if_missing exHeaderA ("x.py".toList) (.text ("hi\n".toList))
      = .ok (true, ("# A\n\nhi\n".toList)) ∧
    exHeaderA.check ("# A\n\nhi\n".toList) = true ∧
    add_header_if_missing exHeaderA ("x.py".toList) (.text ("# A\n\nhi\n".toList))
      = .ok (false, ("# A\n\nhi\n".toList)) :=
  ⟨rfl, rfl,
    C6_add_idempotent exHeaderA ("x.py".toList) ("hi\n".toList)
      ("# A\n\nhi\n".toList) true rfl rfl⟩

theorem read_line_none_iff (s : Str) : read_line s = none ↔ s = [] := by
  cases s with
  | nil => simp [read_line]
  | cons c rest =>
    simp only [read_line, List.cons_ne_nil, iff_false]
    by_cases hc : c = '\n'
    · simp [hc]
    · rw [if_neg hc]
      cases h : read_line rest <;> simp

theorem read_lines_step {s l r : Str} (h : read_line s = some (l, r)) :
    read_lines s = l :: read_lines r := by
  induction s generalizing l r with
  | nil => simp [read_line] at h
  | cons c rest ih =>
    rw [read_line] at h
    rw [read_lines]
    by_cases hc : c = '\n'
    · rw [if_pos hc] at h
      simp only [Option.some.injEq, Prod.mk.injEq] at h
      obtain ⟨rfl, rfl⟩ := h
      rw [if_pos hc]
    · rw [if_neg hc] at h
      rw [if_neg hc]
      cases hrl : read_line rest with
      | none =>
        rw [hrl] at h
        simp only [Option.some.injEq, Prod.mk.injEq] at h
        obtain ⟨rfl, rfl⟩ := h
        have hrest : rest = [] := (read_line_none_iff rest).mp hrl
        subst hrest
        rw [read_lines]
      | some lr =>
        obtain ⟨l2, r2⟩ := lr
        rw [hrl] at h
        simp only [Option.some.injEq, Prod.mk.injEq] at h
        obtain ⟨rfl, rfl⟩ := h
        rw [ih hrl]

/-- C7: `SingleLineChecker.check` returns true exactly when one of the first
`max_lines` lines of the input — lines as the reader delimits them, each
including its terminating newline, with a possibly unterminated final line —
contains the pattern as a substring; reaching end of input or the line limit
without a match yields false. -/
theorem C7_single_line_checker (c : SingleLineChecker) (input : Str) :
    c.check input = true ↔
      ∃ l ∈ (read_lines input).take c.max_lines, c.pattern <:+: l := by
  obtain ⟨pattern, max_lines⟩ := c
  simp only [SingleLineChecker.check]
  induction max_lines generalizing input with
  | zero => simp [slc_check_loop]
  | succ n ih =>
    cases hrl : read_line input with
    | none =>
      have hin : input = [] := (read_line_none_iff input).mp hrl
      subst hin
      simp [slc_check_loop, read_line, read_lines]
    | some lr =>
      obtain ⟨l, r⟩ := lr
      have hloop : slc_check_loop pattern (n + 1) input
          = if containsSub l pattern = true then true
            else slc_check_loop pattern n r := by
        rw [slc_check_loop, hrl]
      rw [hloop, read_lines_step hrl]
      by_cases hc : containsSub l pattern = true
      · simp only [hc, if_true, true_iff]
        exact ⟨l, by simp, (containsSub_iff l pattern).mp hc⟩
      · rw [if_neg hc, ih r]
        constructor
        · intro ⟨x, hx, hinf⟩
          exact ⟨x, by simpa using Or.inr hx, hinf⟩
        · intro ⟨x, hx, hinf⟩
          rcases List.mem_cons.mp (by simpa using hx) with rfl | hx2
          · exact absurd ((containsSub_iff x pattern).mpr hinf) hc
          · exact ⟨x, hx2, hinf⟩

/-- One worker-result routing step of the scan: classify a file and push the
result, if any, into the buckets. -/
def scan_step (H : Header) (acc : FileResults) (pf : Str × RawFile) : FileResults :=
  match classify_file H pf.1 pf.2 with
  | none => acc
  | some fr => acc.push fr

theorem check_headers_eq_fold (H : Header) (files : List (Str × RawFile)) :
    check_headers_recursively H files = files.foldl (scan_step H) ⟨[], []⟩ := rfl

theorem push_binary_mono {r : FileResults} {fr : FileResult} {p : Str}
    (h : p ∈ r.binary_files) : p ∈ (r.push fr).binary_files := by
  obtain ⟨path, status⟩ := fr
  cases status with
  | headerNotFound => simpa [FileResults.push] using h
  | binaryFile =>
    simp only [FileResults.push]
    exact List.mem_append_left _ h

theorem scan_fold_binary (H : Header) (p : Str) :
    ∀ (files : List (Str × RawFile)) (acc : FileResults),
      ((p, RawFile.binary) ∈ files ∨ p ∈ acc.binary_files) →
      p ∈ (files.foldl (scan_step H) acc).binary_files := by
  intro files
  induction files with
  | nil =>
    intro acc h
    rcases h with h | h
    · simp at h
    · simpa using h
  | cons qf rest ih =>
    intro acc h
    rw [List.foldl_cons]
    apply ih
    rcases h with h | h
    · rcases List.mem_cons.mp h with heq | hmem
      · right
        subst heq
        simp [scan_step, classify_file, FileResults.push]
      · left
        exact hmem
    · right
      obtain ⟨q, f⟩ := qf
      cases f with
      | binary =>
        simp only [scan_step, classify_file]
        exact push_binary_mono h
      | text c =>
        by_cases hch : H.header_present c = true
        · simpa [scan_step, classify_file, hch] using h
        · have hch2 : H.header_present c = false := by
            rcases Bool.eq_false_or_eq_true (H.header_present c) with hb | hb
            · exact absurd hb hch
            · exact hb
          simp only [scan_step, classify_file, hch2, Bool.false_eq_true, if_false]
          exact push_binary_mono h

theorem scan_fold_no_header (H : Header) (p : Str) :
    ∀ (files : List (Str × RawFile)) (acc : FileResults),
      (∀ f, (p, f) ∈ files → f = RawFile.binary) →
      p ∉ acc.no_header_files →
      p ∉ (files.foldl (scan_step H) acc).no_header_files := by
  intro files
  induction files with
  | nil =>
    intro acc _ h
    simpa using h
  | cons qf rest ih =>
    intro acc hall h
    rw [List.foldl_cons]
    apply ih
    · intro f hf
      exact hall f (List.mem_cons_of_mem qf hf)
    · obtain ⟨q, f⟩ := qf
      cases f with
      | binary =>
        simp only [scan_step, classify_file, FileResults.push]
        simpa using h
      | text c =>
        have hqp : q ≠ p := by
          intro hq
          subst hq
          exact RawFile.noConfusion (hall (RawFile.text c) (List.mem_cons_self _ _))
        by_cases hch : H.header_present c = true
        · simpa [scan_step, classify_file, hch] using h
        · have hch2 : H.header_present c = false := by
            rcases Bool.eq_false_or_eq_true (H.header_present c) with hb | hb
            · exact absurd hb hch
            · exact hb
          simp only [scan_step, classify_file, hch2, Bool.false_eq_true, if_false,
            FileResults.push]
          intro hmem
          rcases List.mem_append.mp hmem with hm | hm
          · exact h hm
          · exact hqp (List.mem_singleton.mp hm).symm

/-- C8: a file whose bytes fail to decode within the scanned window is recorded
by the scan in the `binary_files` bucket — a result category, not an error —
and not in `no_header_files`; the same file makes `add_header_if_missing` and
`delete_header_if_present` fail with `IoError`. -/
theorem C8_binary_files (H : Header) (p : Str) (l1 l2 : List (Str × RawFile))
    (huniq : p ∉ (l1 ++ l2).map Prod.fst) :
    p ∈ (check_headers_recursively H (l1 ++ (p, RawFile.binary) :: l2)).binary_files ∧
    p ∉ (check_headers_recursively H (l1 ++ (p, RawFile.binary) :: l2)).no_header_files ∧
    add_header_if_missing H p .binary = .error (.ioError p) ∧
    delete_header_if_present H p .binary = .error (.ioError p) := by
  refine ⟨?_, ?_, rfl, rfl⟩
  · rw [check_headers_eq_fold]
    apply scan_fold_binary
    left
    simp
  · rw [check_headers_eq_fold]
    apply scan_fold_no_header
    · rw [List.map_append] at huniq
      intro f hf
      rcases List.mem_append.mp hf with hm | hm
      · exact absurd (List.mem_map_of_mem Prod.fst hm)
          (fun hx => huniq (List.mem_append_left _ hx))
      · rcases List.mem_cons.mp hm with heq | hm2
        · exact (Prod.mk.injEq _ _ _ _ ▸ heq).2
        · exact absurd (List.mem_map_of_mem Prod.fst hm2)
            (fun hx => huniq (List.mem_append_right _ hx))
    · simp

theorem C8_witness :
    (("q.rs".toList, RawFile.text ("// x\n".toList)) :: [(("b.rs".toList), RawFile.binary)]
        = [(("q.rs".toList), RawFile.text ("// x\n".toList))]
          ++ (("b.rs".toList), RawFile.binary) :: []) ∧
    ("b.rs".toList) ∉ ([(("q.rs".toList), RawFile.text ("// x\n".toList))]
        ++ ([] : List (Str × RawFile))).map Prod.fst ∧
    (("b.rs".toList) ∈ (check_headers_recursively exHeaderA
        ([(("q.rs".toList), RawFile.text ("// x\n".toList))]
          ++ (("b.rs".toList), RawFile.binary) :: [])).binary_files ∧
      ("b.rs".toList) ∉ (check_headers_recursively exHeaderA
        ([(("q.rs".toList), RawFile.text ("// x\n".toList))]
          ++ (("b.rs".toList), RawFile.binary) :: [])).no_header_files ∧
      add_header_if_missing exHeaderA ("b.rs".toList) .binary
        = .error (.ioError ("b.rs".toList)) ∧
      delete_header_if_present exHeaderA ("b.rs".toList) .binary
        = .error (.ioError ("b.rs".toList))) :=
  ⟨rfl, by decide,
    C8_binary_files exHeaderA ("b.rs".toList)
      [(("q.rs".toList), RawFile.text ("// x\n".toList))] [] (by decide)⟩

/-- C9: the claim (and spec §4.6/§5/§7) says the scanner joins every spawned
worker before surfacing the first fatal error, but `check_headers_recursively`
returns through `?` at the result-collection step (src/lib.rs:331-332) before
the `for h in handles { h.join() }` loop at src/lib.rs:333-335, so on the error
path the join loop is never reached: in the control-flow model, the first error
is returned with the join flag still false, both for a worker I/O error and for
an enumeration (walkdir) error. The error returned is the first one observed in
channel order. -/
theorem C9_error_returns_before_join :
    check_scan_control_flow (.ok ())
        [.error (.ioError ("f.rs".toList)), .error (.ioError ("g.rs".toList))]
      = (.error (.ioError ("f.rs".toList)), false) ∧
    check_scan_control_flow (.error (.mk 0)) []
      = (.error (.walkdirError (.mk 0)), false) ∧
    check_scan_control_flow (.ok ()) [.ok ⟨("h.rs".toList), .headerNotFound⟩]
      = (.ok ⟨[("h.rs".toList)], []⟩, true) :=
  ⟨rfl, rfl, rfl⟩

/-- C10: in `add_headers_recursively` and `delete_headers_recursively` the
directory walk runs to completion before any per-file operation is applied, so
when the walk fails the walk error is returned, the operation is invoked on no
path, and no file is mutated. -/
theorem C10_walk_error_no_mutation (H : Header) (fs : Str → RawFile)
    (walk : List (Except WalkdirError DirEntry)) (path_predicate : Str → Bool)
    (e : WalkdirError) (hw : find_files walk path_predicate = .error e) :
    add_headers_recursively H fs walk path_predicate
      = (.error (.walkdirError e), []) ∧
    delete_headers_recursively H fs walk path_predicate
      = (.error (.walkdirError e), []) := by
  constructor
  · rw [add_headers_recursively, recursive_optional_operation, hw]
  · rw [delete_headers_recursively, recursive_optional_operation, hw]

theorem C10_witness :
    find_files [.error (.mk 7)] (fun _ => true) = .error (.mk 7) ∧
    add_headers_recursively exHeaderA (fun _ => .text []) [.error (.mk 7)]
        (fun _ => true)
      = (.error (.walkdirError (.mk 7)), []) ∧
    delete_headers_recursively exHeaderA (fun _ => .text []) [.error (.mk 7)]
        (fun _ => true)
      = (.error (.walkdirError (.mk 7)), []) :=
  ⟨rfl,
    (C10_walk_error_no_mutation exHeaderA (fun _ => .text []) [.error (.mk 7)]
      (fun _ => true) (.mk 7) rfl).1,
    (C10_walk_error_no_mutation exHeaderA (fun _ => .text []) [.error (.mk 7)]
      (fun _ => true) (.mk 7) rfl).2⟩
